import Mathlib

/-!
# stern: reconciler, tail table, per-line filter and startup sort

A shallow embedding of `src/stern/{line,main,watch,tail}.go`.

* A Go `string` is a finite sequence of bytes: `GoString := List Nat`.
* A compiled `*regexp.Regexp` is represented by its `MatchString` predicate.
* Channels are represented by the ordered list of values sent on them.
-/

namespace Stern

/-! ## Go strings -/

/-- A Go string: a sequence of bytes. -/
abbrev GoString := List Nat

/-- The bytes of an ASCII string literal (for ASCII, the UTF-8 bytes are the
code points). -/
def bytes (s : String) : GoString :=
  s.toList.map Char.toNat

/-- Go `strings.IndexByte(s, c)`: index of the first `c` in `s`, or `-1`. -/
def IndexByte (s : GoString) (c : Nat) : Int :=
  match s with
  | [] => -1
  | b :: rest =>
    if b = c then 0
    else
      let r := IndexByte rest c
      if r < 0 then -1 else r + 1

/-- Go `strings.Compare(a, b)`: `-1`, `0` or `+1`, bytewise lexicographic. -/
def Compare : GoString → GoString → Int
  | [], [] => 0
  | [], _ :: _ => -1
  | _ :: _, [] => 1
  | a :: as, b :: bs =>
    if a < b then -1 else if b < a then 1 else Compare as bs

/-- Go `a < b` on strings. -/
def strLess (a b : GoString) : Bool :=
  decide (Compare a b < 0)

/-- Go `strings.HasPrefix(s, p)`. -/
def HasPrefix (s p : GoString) : Bool :=
  p.isPrefixOf s

/-! ## line.go -/

/-- The struct `type Line struct { Prefix string; Msg string }`. -/
structure Line where
  Prefix : GoString
  Msg : GoString
deriving DecidableEq, Repr

/-- The slice type `type LineSlice []Line`. -/
abbrev LineSlice := List Line

/-- The leading token computed in `LineSlice.Less`:
`ts := l.Msg; sp := strings.IndexByte(ts, ' '); if sp >= 0 { ts = ts[:sp] }`. -/
def Line.ts (l : Line) : GoString :=
  let ts := l.Msg
  let tsSpace := IndexByte ts 32
  if tsSpace ≥ 0 then ts.take tsSpace.toNat else ts

/-- The body of `LineSlice.Less` on the two elements `s[i]`, `s[j]`. -/
def Line.less (li lj : Line) : Bool :=
  let tsi := li.ts
  let tsj := lj.ts
  let cmp := Compare tsi tsj
  if cmp ≠ 0 then decide (cmp < 0)
  else strLess li.Prefix lj.Prefix

/-- The method `func (s LineSlice) Less(i, j int) bool`; `none` is the index-out-of-range
panic. -/
def LineSlice.Less (s : LineSlice) (i j : Nat) : Option Bool :=
  match s[i]?, s[j]? with
  | some li, some lj => some (li.less lj)
  | _, _ => none

/-! ### `sort.Stable`

`sort.Stable` belongs to the Go standard library.  It is modelled by the
library's own `insertionSort` (the routine `sort.Stable` runs on every block
of at most 20 elements; longer inputs are merged block by block with
`symMerge`).  For a strict weak order the output of a stable sort is
determined by its contract alone, see `stable_sort_unique`. -/

/-- The inner loop of Go's `insertionSort`,
`for j := i; j > a && data.Less(j, j-1); j-- { data.Swap(j, j-1) }`:
`rev` is the already sorted `data[a:i]` read from right to left and `x` is
`data[i]`. -/
def sink {α : Type} (less : α → α → Bool) (x : α) : List α → List α
  | [] => [x]
  | y :: rev => if less x y then y :: sink less x rev else x :: y :: rev

/-- Go's `insertionSort(data, 0, n)`; the accumulator is the sorted part,
reversed. -/
def insertionSort {α : Type} (less : α → α → Bool) (data : List α) : List α :=
  (data.foldl (fun rev x => sink less x rev) []).reverse

/-- Go `sort.Stable(data)` for a `data` whose `Less(i, j)` is `less data[i] data[j]`. -/
def Stable {α : Type} (less : α → α → Bool) (data : List α) : List α :=
  insertionSort less data

/-! ## main.go: the line multiplexer -/

/-- The first goroutine of `Run`: `received` is the sequence of lines read from
the channel `lines`, `k` of which are read before `startupDelayTimer` fires.
The result is the sequence of lines printed. -/
def multiplex (received : List Line) (k : Nat) : List Line :=
  let startupLines : LineSlice := received.take k
  let sorted := Stable Line.less startupLines
  sorted ++ received.drop k

/-- The multiplexer over lines that carry an arrival tag (the comparator only
looks at the line). -/
def multiplexTagged {τ : Type} (received : List (Line × τ)) (k : Nat) : List (Line × τ) :=
  Stable (fun x y => Line.less x.1 y.1) (received.take k) ++ received.drop k

/-! ## watch.go -/

/-- The struct `type Target struct`. -/
structure Target where
  Node : GoString
  Namespace : GoString
  Pod : GoString
  Container : GoString
deriving DecidableEq, Repr

/-- The method `func (t *Target) GetID() string`: `fmt.Sprintf("%s-%s-%s", ...)`. -/
def Target.GetID (t : Target) : GoString :=
  t.Namespace ++ bytes "-" ++ t.Pod ++ bytes "-" ++ t.Container

/-- A compiled `*regexp.Regexp`, represented by its `MatchString`. -/
structure Regexp where
  MatchString : GoString → Bool

/-- The repository's `ContainerState` matcher (declared outside `src/`): only
its method `Match` is used; `σ` stands for `corev1.ContainerState`. -/
structure ContainerState (σ : Type) where
  Match : σ → Bool

/-- Kubernetes `corev1.ContainerStatus`: the fields read by `Watch`. -/
structure ContainerStatus (σ : Type) where
  Name : GoString
  State : σ

/-- Kubernetes `corev1.Container` / `corev1.EphemeralContainer`: the field read by `Watch`. -/
structure Container where
  Name : GoString
deriving DecidableEq, Repr

/-- Kubernetes `corev1.PodSpec`: the fields read by `Watch`. -/
structure PodSpec where
  NodeName : GoString
  Containers : List Container
  InitContainers : List Container
  EphemeralContainers : List Container
deriving DecidableEq, Repr

/-- Kubernetes `corev1.PodStatus`: the fields read by `Watch`. -/
structure PodStatus (σ : Type) where
  ContainerStatuses : List (ContainerStatus σ)
  InitContainerStatuses : List (ContainerStatus σ)
  EphemeralContainerStatuses : List (ContainerStatus σ)

/-- Kubernetes `corev1.Pod`: the fields read by `Watch`. -/
structure Pod (σ : Type) where
  Name : GoString
  Namespace : GoString
  Spec : PodSpec
  Status : PodStatus σ

/-- Kubernetes `watch.EventType`. -/
inductive EventType where
  | Added
  | Modified
  | Deleted
  | Bookmark
  | Error
deriving DecidableEq, Repr

/-- The dynamic type of `e.Object`: a `*corev1.Pod` or something else. -/
inductive Object (σ : Type) where
  | pod (p : Pod σ)
  | other

/-- Kubernetes `watch.Event` (its field `Type` is written `Type_`); `Object = none` is the
nil object of a closed result channel. -/
structure Event (σ : Type) where
  Type_ : EventType
  Object : Option (Object σ)

/-- One send of `Watch`: `added <- t` or `removed <- t`. -/
inductive Decision where
  | added (t : Target)
  | removed (t : Target)
deriving DecidableEq, Repr

/-- The parameters of `Watch` that its event loop reads. -/
structure WatchArgs (σ : Type) where
  podFilter : Regexp
  excludePodFilter : Option Regexp
  containerFilter : Regexp
  containerExcludeFilter : Option Regexp
  initContainers : Bool
  ephemeralContainers : Bool
  containerStates : List (ContainerState σ)

/-- The test `f != nil && f.MatchString(s)`. -/
def notNilAndMatches (f : Option Regexp) (s : GoString) : Bool :=
  match f with
  | none => false
  | some r => r.MatchString s

/-- The function `func getContainerNames(containers []corev1.Container) []string`. -/
def getContainerNames : List Container → List GoString
  | [] => []
  | c :: rest => c.Name :: getContainerNames rest

/-- The function `func getEphemeralContainerNames(containers []corev1.EphemeralContainer) []string`. -/
def getEphemeralContainerNames : List Container → List GoString
  | [] => []
  | c :: rest => c.Name :: getEphemeralContainerNames rest

/-- The loop `for _, containerState := range containerStates` with its `break`:
the final value of `containerStateMatched`. -/
def containerStateMatched {σ : Type} : List (ContainerState σ) → σ → Bool
  | [], _ => false
  | containerState :: rest, s =>
    if containerState.Match s then true else containerStateMatched rest s

/-- The loop `for _, c := range statuses` of the `Added, Modified` case: the
sends it performs, in order. -/
def statusesLoop {σ : Type} (a : WatchArgs σ) (pod : Pod σ) :
    List (ContainerStatus σ) → List Decision
  | [] => []
  | c :: rest =>
    if !a.containerFilter.MatchString c.Name then statusesLoop a pod rest
    else if notNilAndMatches a.containerExcludeFilter c.Name then statusesLoop a pod rest
    else
      let t : Target :=
        { Node := pod.Spec.NodeName, Namespace := pod.Namespace, Pod := pod.Name,
          Container := c.Name }
      if containerStateMatched a.containerStates c.State then
        Decision.added t :: statusesLoop a pod rest
      else
        Decision.removed t :: statusesLoop a pod rest

/-- The loop `for _, cn := range containerNames` of the `Deleted` case. -/
def namesLoop {σ : Type} (a : WatchArgs σ) (pod : Pod σ) :
    List GoString → List Decision
  | [] => []
  | cn :: rest =>
    if !a.containerFilter.MatchString cn then namesLoop a pod rest
    else if notNilAndMatches a.containerExcludeFilter cn then namesLoop a pod rest
    else
      Decision.removed
        { Node := pod.Spec.NodeName, Namespace := pod.Namespace, Pod := pod.Name,
          Container := cn } :: namesLoop a pod rest

/-- One iteration of the event loop of `Watch` on `e := <-watcher.ResultChan()`:
`none` when the channels are closed and the goroutine returns, otherwise the
sends performed for `e`, in order. -/
def watchEvent {σ : Type} (a : WatchArgs σ) (e : Event σ) : Option (List Decision) :=
  match e.Object with
  | none => none
  | some Object.other => some []
  | some (Object.pod pod) =>
    if !a.podFilter.MatchString pod.Name then some []
    else if notNilAndMatches a.excludePodFilter pod.Name then some []
    else
      match e.Type_ with
      | EventType.Added | EventType.Modified =>
        let statuses := pod.Status.ContainerStatuses
        let statuses :=
          if a.initContainers then statuses ++ pod.Status.InitContainerStatuses else statuses
        let statuses :=
          if a.ephemeralContainers then statuses ++ pod.Status.EphemeralContainerStatuses
          else statuses
        some (statusesLoop a pod statuses)
      | EventType.Deleted =>
        let containerNames := getContainerNames pod.Spec.Containers
        let containerNames :=
          if a.initContainers then containerNames ++ getContainerNames pod.Spec.InitContainers
          else containerNames
        let containerNames :=
          if a.ephemeralContainers then
            containerNames ++ getEphemeralContainerNames pod.Spec.EphemeralContainers
          else containerNames
        some (namesLoop a pod containerNames)
      | _ => some []

/-- The event loop of `Watch` over the events delivered by the watcher, until
the result channel is closed: all sends, in order. -/
def Watch {σ : Type} (a : WatchArgs σ) : List (Event σ) → List Decision
  | [] => []
  | e :: rest =>
    match watchEvent a e with
    | none => []
    | some ds => ds ++ Watch a rest

/-! ## tail.go -/

/-- The variable `rpcErrorNoSuchContainerBytes`. -/
def rpcErrorNoSuchContainerBytes : GoString :=
  bytes "rpc error: code = Unknown desc = Error: No such container"

/-- The struct `type TailOptions struct`. -/
structure TailOptions where
  Timestamps : Bool
  SinceSeconds : Int
  Exclude : List Regexp
  Include : List Regexp
  Namespace : Bool
  TailLines : Option Int

/-- The loop `for _, rex := range t.Options.Exclude` with its `break`: the final
value of `exclude`. -/
def excludeLoop : List Regexp → GoString → Bool
  | [], _ => false
  | rex :: rest, str => if rex.MatchString str then true else excludeLoop rest str

/-- The loop `for _, rin := range t.Options.Include` with its `break`: the final
value of `matches`. -/
def includeLoop : List Regexp → GoString → Bool
  | [], _ => false
  | rin :: rest, str => if rin.MatchString str then true else includeLoop rest str

/-- The loop `for scanner.Scan()` of `Tail.Start` over the lines the scanner
yields: the values sent on `lines`, in order. -/
def scanLoop (options : TailOptions) (containerPrefix : GoString) :
    List GoString → List Line
  | [] => []
  | line :: rest =>
    if HasPrefix line rpcErrorNoSuchContainerBytes then
      scanLoop options containerPrefix rest
    else
      let str := line
      let exclude := excludeLoop options.Exclude str
      if exclude then scanLoop options containerPrefix rest
      else if options.Include.length ≠ 0 then
        let matches_ := includeLoop options.Include str
        if !matches_ then scanLoop options containerPrefix rest
        else { Prefix := containerPrefix, Msg := str } :: scanLoop options containerPrefix rest
      else { Prefix := containerPrefix, Msg := str } :: scanLoop options containerPrefix rest

/-- A pattern without metacharacters, compiled: it matches the strings that
contain it. -/
def literalRegexp (pattern : GoString) : Regexp :=
  { MatchString := fun s => s.tails.any (fun t => pattern.isPrefixOf t) }

/-! ### The channel `closed` of a `Tail` -/

/-- The state of a Go channel that is only ever closed. -/
inductive Chan where
  | isOpen
  | isClosed
deriving DecidableEq, Repr

/-- Go `close(ch)`: `none` is the run-time panic "close of closed channel". -/
def Chan.close : Chan → Option Chan
  | Chan.isOpen => some Chan.isClosed
  | Chan.isClosed => none

/-- What of a started `Tail` the stop signals touch: the channel `closed`, and
whether the goroutine `<-ctx.Done(); close(t.closed)` spawned by `Start` is
still waiting. -/
structure TailState where
  closed : Chan
  ctxWaiting : Bool
deriving DecidableEq, Repr

/-- The state after `NewTail` and `Start`: `closed: make(chan struct{})`, the
context goroutine waiting. -/
def TailState.started : TailState :=
  { closed := Chan.isOpen, ctxWaiting := true }

/-- A stop signal: a call of `Tail.Close` (made by `Run` on a REMOVE), or the
cancellation of the context given to `Tail.Start`. -/
inductive Signal where
  | Close
  | ctxDone
deriving DecidableEq, Repr

/-- The effect of one stop signal; `none` is a panic.
`Close` runs `close(t.closed)`; the cancellation wakes the goroutine of `Start`,
which runs `close(t.closed)` and ends (a context is cancelled once). -/
def TailState.signal (t : TailState) : Signal → Option TailState
  | Signal.Close =>
    match t.closed.close with
    | none => none
    | some c => some { t with closed := c }
  | Signal.ctxDone =>
    if t.ctxWaiting then
      match t.closed.close with
      | none => none
      | some c => some { closed := c, ctxWaiting := false }
    else some t

/-- A sequence of stop signals applied to a `Tail`, one after the other. -/
def TailState.signals (t : TailState) : List Signal → Option TailState
  | [] => some t
  | sig :: rest =>
    match t.signal sig with
    | none => none
    | some t1 => t1.signals rest

/-! ## main.go: the table of tails -/

/-- A `*Tail` made by `NewTail`: `addr` is the identity of the allocation. -/
structure Tail where
  addr : Nat
  Namespace : GoString
  PodName : GoString
  ContainerName : GoString
deriving DecidableEq, Repr

/-- The function `func NewTail(namespace, podName, containerName string, ...) *Tail`, allocating
at `addr`. -/
def NewTail (addr : Nat) (ns podName containerName : GoString) : Tail :=
  { addr := addr, Namespace := ns, PodName := podName, ContainerName := containerName }

/-- A call made by `Run` on a tail: `tail.Start(...)` or `tails[id].Close()`. -/
inductive Action where
  | Start (id : GoString) (tail : Tail)
  | Close (id : GoString) (tail : Tail)
deriving DecidableEq, Repr

/-- The ID an action is about. -/
def Action.id : Action → GoString
  | Action.Start id _ => id
  | Action.Close id _ => id

/-- Go `tails[id]` on `map[string]*Tail`: `none` is the nil of an absent key. -/
def mapGet (m : List (GoString × Tail)) (id : GoString) : Option Tail :=
  match m with
  | [] => none
  | (k, v) :: rest => if k = id then some v else mapGet rest id

/-- Go `delete(tails, id)`. -/
def mapDelete (m : List (GoString × Tail)) (id : GoString) : List (GoString × Tail) :=
  m.filter (fun e => e.1 ≠ id)

/-- Go `tails[id] = tail`. -/
def mapSet (m : List (GoString × Tail)) (id : GoString) (tail : Tail) :
    List (GoString × Tail) :=
  (id, tail) :: mapDelete m id

/-- The state of the two table goroutines of `Run`: the map `tails`, the number
of tails allocated, the addresses of the tails whose reader goroutine has not
returned, and the calls made so far. -/
structure RunState where
  tails : List (GoString × Tail)
  allocated : Nat
  running : List Nat
  trace : List Action
deriving DecidableEq, Repr

/-- The empty table, `tails := make(map[string]*Tail)`. -/
def RunState.init : RunState :=
  { tails := [], allocated := 0, running := [], trace := [] }

/-- The body of `for p := range added`. -/
def onAdd (s : RunState) (p : Target) : RunState :=
  let id := p.GetID
  match mapGet s.tails id with
  | some _ => s
  | none =>
    let tail := NewTail s.allocated p.Namespace p.Pod p.Container
    { tails := mapSet s.tails id tail
      allocated := s.allocated + 1
      running := tail.addr :: s.running
      trace := s.trace ++ [Action.Start id tail] }

/-- The body of `for p := range removed`; `Close` closes `closed`, upon which the
stream is closed and the reader goroutine returns. -/
def onRemove (s : RunState) (p : Target) : RunState :=
  let id := p.GetID
  match mapGet s.tails id with
  | none => s
  | some tail =>
    { tails := mapDelete s.tails id
      allocated := s.allocated
      running := s.running.filter (fun a => a ≠ tail.addr)
      trace := s.trace ++ [Action.Close id tail] }

/-- The reader goroutine of the tail at `addr` returns on its own (`req.Stream`
fails, the scanner reaches the end of the stream, or a read error): nothing of
`Run` is told. -/
def onWorkerEnd (s : RunState) (addr : Nat) : RunState :=
  { s with running := s.running.filter (fun a => a ≠ addr) }

/-- What can happen to the table: a receive on `added`, a receive on `removed`,
or a reader goroutine returning on its own. -/
inductive RunEvent where
  | added (p : Target)
  | removed (p : Target)
  | workerEnded (addr : Nat)
deriving DecidableEq, Repr

/-- One event applied to the table. -/
def RunState.step (s : RunState) : RunEvent → RunState
  | RunEvent.added p => onAdd s p
  | RunEvent.removed p => onRemove s p
  | RunEvent.workerEnded addr => onWorkerEnd s addr

/-- A sequence of events applied one after the other, from `s`. -/
def RunState.run (s : RunState) (evs : List RunEvent) : RunState :=
  evs.foldl RunState.step s

/-- Starts and stops strictly alternate, beginning with a start when `cur` is
`none`; `cur` is the tail started and not yet stopped, and a stop must stop
that tail. -/
def alternating : Option Tail → List Action → Bool
  | _, [] => true
  | none, Action.Start _ t :: rest => alternating (some t) rest
  | some t, Action.Close _ t1 :: rest => decide (t = t1) && alternating none rest
  | _, _ => false

/-- The calls of a trace that are about `id`. -/
def callsFor (id : GoString) (trace : List Action) : List Action :=
  trace.filter (fun a => a.id = id)

/-! ## The specification's wording, as definitions -/

/-- Spec, reconciler: the pod name passes the include filter and fails the
exclude filter (when one is set). -/
def specPodPasses {σ : Type} (a : WatchArgs σ) (name : GoString) : Bool :=
  a.podFilter.MatchString name && a.excludePodFilter.all (fun f => !f.MatchString name)

/-- Spec, reconciler: a candidate survives iff its name matches the container
include filter and no container exclude filter is set or it does not match. -/
def specSurvives {σ : Type} (a : WatchArgs σ) (name : GoString) : Bool :=
  a.containerFilter.MatchString name &&
    a.containerExcludeFilter.all (fun f => !f.MatchString name)

/-- Spec, reconciler: `Target{node, namespace, pod, container}`. -/
def specTarget {σ : Type} (pod : Pod σ) (container : GoString) : Target :=
  { Node := pod.Spec.NodeName, Namespace := pod.Namespace, Pod := pod.Name,
    Container := container }

/-- Spec, Added/Modified: the container statuses, then the init-container
statuses when enabled, then the ephemeral-container statuses when enabled. -/
def specCandidates {σ : Type} (a : WatchArgs σ) (pod : Pod σ) : List (ContainerStatus σ) :=
  pod.Status.ContainerStatuses ++
    (if a.initContainers then pod.Status.InitContainerStatuses else []) ++
    (if a.ephemeralContainers then pod.Status.EphemeralContainerStatuses else [])

/-- Spec, Added/Modified: ADD iff at least one matcher accepts the state,
REMOVE otherwise. -/
def specClassify {σ : Type} (a : WatchArgs σ) (pod : Pod σ) (c : ContainerStatus σ) :
    Decision :=
  if a.containerStates.any (fun m => m.Match c.State) then
    Decision.added (specTarget pod c.Name)
  else Decision.removed (specTarget pod c.Name)

/-- Spec, Added/Modified: the decisions for a pod. -/
def specAddedModified {σ : Type} (a : WatchArgs σ) (pod : Pod σ) : List Decision :=
  if specPodPasses a pod.Name then
    ((specCandidates a pod).filter (fun c => specSurvives a c.Name)).map (specClassify a pod)
  else []

/-- Spec, Deleted: the names declared in the pod's spec: `spec.containers`, then
`spec.initContainers` when enabled, then `spec.ephemeralContainers` when
enabled. -/
def specDeclaredNames (initContainers ephemeralContainers : Bool) (spec : PodSpec) :
    List GoString :=
  spec.Containers.map (fun c => c.Name) ++
    (if initContainers then spec.InitContainers.map (fun c => c.Name) else []) ++
    (if ephemeralContainers then spec.EphemeralContainers.map (fun c => c.Name) else [])

/-- Spec, Deleted: one REMOVE per declared name that survives the container
filters, in list order. -/
def specDeleted {σ : Type} (a : WatchArgs σ) (pod : Pod σ) : List Decision :=
  ((specDeclaredNames a.initContainers a.ephemeralContainers pod.Spec).filter
    (fun cn => specSurvives a cn)).map (fun cn => Decision.removed (specTarget pod cn))

/-- Spec, per-line filter: the line is forwarded iff (1) it does not begin with
the synthetic runtime message, (2) no exclude pattern matches it, (3) the
include list is empty or at least one include pattern matches it. -/
def specForwarded (options : TailOptions) (line : GoString) : Bool :=
  !(rpcErrorNoSuchContainerBytes.isPrefixOf line) &&
    !(options.Exclude.any (fun r => r.MatchString line)) &&
    (options.Include.isEmpty || options.Include.any (fun r => r.MatchString line))

/-! ## Concrete inputs -/

/-- A configuration: pods containing `web`, every container but `sidecar`, init
containers enabled, ephemeral containers disabled, one matcher accepting the
state `1`. -/
def exArgs : WatchArgs Nat :=
  { podFilter := literalRegexp (bytes "web")
    excludePodFilter := none
    containerFilter := literalRegexp []
    containerExcludeFilter := some (literalRegexp (bytes "sidecar"))
    initContainers := true
    ephemeralContainers := false
    containerStates := [{ Match := fun s => s == 1 }] }

/-- A pod `default/web-1` with containers `app`, `sidecar`, an init container
`init` (in state `2`) and an ephemeral container `dbg`. -/
def exPod : Pod Nat :=
  { Name := bytes "web-1"
    Namespace := bytes "default"
    Spec :=
      { NodeName := bytes "n1"
        Containers := [{ Name := bytes "app" }, { Name := bytes "sidecar" }]
        InitContainers := [{ Name := bytes "init" }]
        EphemeralContainers := [{ Name := bytes "dbg" }] }
    Status :=
      { ContainerStatuses :=
          [{ Name := bytes "app", State := 1 }, { Name := bytes "sidecar", State := 1 }]
        InitContainerStatuses := [{ Name := bytes "init", State := 2 }]
        EphemeralContainerStatuses := [{ Name := bytes "dbg", State := 1 }] } }

/-- The target of container `cn` of `exPod`. -/
def exTarget (cn : String) : Target :=
  { Node := bytes "n1", Namespace := bytes "default", Pod := bytes "web-1",
    Container := bytes cn }

/-- Tail options whose only filter is the exclude pattern `ERROR`. -/
def exOptions : TailOptions :=
  { Timestamps := false
    SinceSeconds := 0
    Exclude := [literalRegexp (bytes "ERROR")]
    Include := []
    Namespace := false
    TailLines := none }

/-- Spec, sort: the leading token of a message, up to but excluding the first
space, or the whole message if it has no space. -/
def leadingToken (msg : GoString) : GoString :=
  msg.takeWhile (fun b => b ≠ 32)

/-- Spec, sort: bytewise lexicographic "smaller than" on strings. -/
def lexLt (a b : GoString) : Prop :=
  List.Lex (fun x y : Nat => x < y) a b

/-- Spec, sort: the key of a line, leading token then prefix. -/
def sortKey (l : Line) : GoString × GoString :=
  (leadingToken l.Msg, l.Prefix)

/-- Spec, sort: key `k1` is smaller than key `k2`: by leading token, on equality
by prefix. -/
def keyLt (k1 k2 : GoString × GoString) : Prop :=
  lexLt k1.1 k2.1 ∨ (k1.1 = k2.1 ∧ lexLt k1.2 k2.2)

/-- A strict weak order, as `sort.Stable` requires of `Less`: irreflexive,
transitive, with transitive incomparability. -/
structure StrictWeakOrder {α : Type} (less : α → α → Bool) : Prop where
  irrefl : ∀ a, less a a = false
  trans : ∀ a b c, less a b = true → less b c = true → less a c = true
  incomp_trans : ∀ a b c, less a b = false → less b a = false →
    less b c = false → less c b = false → less a c = false ∧ less c a = false

/-- Whether `x` is incomparable to `a` under `less`: neither is `Less` than the
other. -/
def incomparable {α : Type} (less : α → α → Bool) (a x : α) : Bool :=
  !less a x && !less x a

/-- The line `2024-01-01T00:00:00Z started` of pod `web-1`. -/
def exLineWeb1 : Line :=
  { Prefix := bytes "web-1", Msg := bytes "2024-01-01T00:00:00Z started" }

/-- The line `2024-01-01T00:00:01Z started` of pod `web-2`. -/
def exLineWeb2 : Line :=
  { Prefix := bytes "web-2", Msg := bytes "2024-01-01T00:00:01Z started" }

/-- The first line of a worker with prefix `app`. -/
def exLineFirst : Line :=
  { Prefix := bytes "app", Msg := bytes "server starting" }

/-- The second line of the same worker. -/
def exLineSecond : Line :=
  { Prefix := bytes "app", Msg := bytes "listening on 8080" }

/-- The line `started` of a worker with prefix `web-2`, no space in it. -/
def exStarted2 : Line :=
  { Prefix := bytes "web-2", Msg := bytes "started" }

/-- The line `started` of a worker with prefix `web-1`. -/
def exStarted1 : Line :=
  { Prefix := bytes "web-1", Msg := bytes "started" }

/-- The tail started and not stopped since, after the calls of a trace about
one ID; `cur` is that tail before the calls. -/
def startedTail : Option Tail → List Action → Option Tail
  | cur, [] => cur
  | _, Action.Start _ t :: rest => startedTail (some t) rest
  | _, Action.Close _ _ :: rest => startedTail none rest

/-- Container `db-proxy` of pod `api` in namespace `default`. -/
def exTargetA : Target :=
  { Node := bytes "n1", Namespace := bytes "default", Pod := bytes "api",
    Container := bytes "db-proxy" }

/-- Container `proxy` of pod `api-db` in namespace `default`. -/
def exTargetB : Target :=
  { Node := bytes "n1", Namespace := bytes "default", Pod := bytes "api-db",
    Container := bytes "proxy" }

/-- What holds of every state `s` of the table reached from the empty one by
the events `evs`: for each ID the calls alternate, the table holds the tail
started and not stopped since, the tails in the table are distinct allocated
tails, and each runs unless its reader ended on its own. -/
structure RunState.Inv (evs : List RunEvent) (s : RunState) : Prop where
  alt : ∀ id, alternating none (callsFor id s.trace) = true
  sync : ∀ id, startedTail none (callsFor id s.trace) = mapGet s.tails id
  fresh : ∀ id t, mapGet s.tails id = some t → t.addr < s.allocated
  inj : ∀ id1 id2 t1 t2, mapGet s.tails id1 = some t1 → mapGet s.tails id2 = some t2 →
    t1.addr = t2.addr → id1 = id2
  live : ∀ id t, mapGet s.tails id = some t →
    t.addr ∈ s.running ∨ RunEvent.workerEnded t.addr ∈ evs

/-- The events: container `app` of pod `web-1` is added, then its reader ends on
its own (the tail allocated first has address `0`). -/
def exEndedEvents : List RunEvent :=
  [RunEvent.added (exTarget "app"), RunEvent.workerEnded 0]

/-- The tail started for `exTarget "app"` by the first ADD. -/
def exTail : Tail :=
  NewTail 0 (bytes "default") (bytes "web-1") (bytes "app")

/-! # Theorems -/

theorem containerStateMatched_eq_any {σ : Type} (ms : List (ContainerState σ)) (s : σ) :
    containerStateMatched ms s = ms.any (fun m => m.Match s) := by
  induction ms with
  | nil => rfl
  | cons m rest ih => by_cases h : m.Match s <;> simp [containerStateMatched, h, ih]

theorem notNilAndMatches_eq (f : Option Regexp) (s : GoString) :
    notNilAndMatches f s = !(f.all (fun r => !r.MatchString s)) := by
  cases f <;> simp [notNilAndMatches]

theorem statusesLoop_eq {σ : Type} (a : WatchArgs σ) (pod : Pod σ)
    (l : List (ContainerStatus σ)) :
    statusesLoop a pod l =
      (l.filter (fun c => specSurvives a c.Name)).map (specClassify a pod) := by
  induction l with
  | nil => rfl
  | cons c rest ih =>
    by_cases h1 : a.containerFilter.MatchString c.Name
    · by_cases h2 : notNilAndMatches a.containerExcludeFilter c.Name
      · have h2' := h2
        rw [notNilAndMatches_eq] at h2'
        simp at h2'
        simp [statusesLoop, h1, h2, ih, specSurvives, h2']
      · have h2' := h2
        rw [notNilAndMatches_eq] at h2'
        simp at h2'
        by_cases h3 : containerStateMatched a.containerStates c.State
        · have h3' := h3
          rw [containerStateMatched_eq_any] at h3'
          simp [statusesLoop, h1, h2, h3, ih, specSurvives, h2', specClassify, specTarget, h3']
        · have h3' := h3
          rw [containerStateMatched_eq_any] at h3'
          simp [statusesLoop, h1, h2, h3, ih, specSurvives, h2', specClassify, specTarget, h3']
    · simp [statusesLoop, h1, ih, specSurvives]

theorem getContainerNames_eq (l : List Container) :
    getContainerNames l = l.map (fun c => c.Name) := by
  induction l with
  | nil => rfl
  | cons c rest ih => simp [getContainerNames, ih]

theorem getEphemeralContainerNames_eq (l : List Container) :
    getEphemeralContainerNames l = l.map (fun c => c.Name) := by
  induction l with
  | nil => rfl
  | cons c rest ih => simp [getEphemeralContainerNames, ih]

theorem namesLoop_eq {σ : Type} (a : WatchArgs σ) (pod : Pod σ) (l : List GoString) :
    namesLoop a pod l =
      (l.filter (fun cn => specSurvives a cn)).map
        (fun cn => Decision.removed (specTarget pod cn)) := by
  induction l with
  | nil => rfl
  | cons c rest ih =>
    by_cases h1 : a.containerFilter.MatchString c
    · by_cases h2 : notNilAndMatches a.containerExcludeFilter c
      · have h2' := h2
        rw [notNilAndMatches_eq] at h2'
        simp at h2'
        simp [namesLoop, h1, h2, ih, specSurvives, h2']
      · have h2' := h2
        rw [notNilAndMatches_eq] at h2'
        simp at h2'
        simp [namesLoop, h1, h2, ih, specSurvives, h2', specTarget]
    · simp [namesLoop, h1, ih, specSurvives]

theorem specPodPasses_eq {σ : Type} (a : WatchArgs σ) (name : GoString) :
    specPodPasses a name =
      (a.podFilter.MatchString name && !notNilAndMatches a.excludePodFilter name) := by
  simp [specPodPasses, notNilAndMatches_eq]

/-- The statuses gathered by the `Added, Modified` case are the candidates of
the specification. -/
theorem watchEvent_added_modified_eq {σ : Type} (a : WatchArgs σ) (e : Event σ) (pod : Pod σ)
    (hobj : e.Object = some (Object.pod pod))
    (htype : e.Type_ = EventType.Added ∨ e.Type_ = EventType.Modified) :
    watchEvent a e = some (specAddedModified a pod) := by
  have hc : ∀ l : List (ContainerStatus σ), statusesLoop a pod l =
      (l.filter (fun c => specSurvives a c.Name)).map (specClassify a pod) :=
    statusesLoop_eq a pod
  unfold watchEvent specAddedModified
  rw [hobj, specPodPasses_eq]
  by_cases h1 : a.podFilter.MatchString pod.Name
  · by_cases h2 : notNilAndMatches a.excludePodFilter pod.Name
    · simp [h1, h2]
    · rcases htype with ht | ht <;>
        cases hi : a.initContainers <;> cases he : a.ephemeralContainers <;>
        simp [h1, h2, ht, hi, he, hc, specCandidates]
  · simp [h1]

theorem watchEvent_deleted_eq {σ : Type} (a : WatchArgs σ) (e : Event σ) (pod : Pod σ)
    (hobj : e.Object = some (Object.pod pod))
    (htype : e.Type_ = EventType.Deleted)
    (hpass : specPodPasses a pod.Name = true) :
    watchEvent a e = some (specDeleted a pod) := by
  rw [specPodPasses_eq] at hpass
  simp at hpass
  unfold watchEvent specDeleted
  rw [hobj]
  cases hi : a.initContainers <;> cases he : a.ephemeralContainers <;>
    simp [hpass.1, hpass.2, htype, namesLoop_eq, specDeclaredNames,
      getContainerNames_eq, getEphemeralContainerNames_eq]

/-- C2. For a pod event of type Added or Modified, `Watch` emits exactly the
decisions of the specification: nothing when the pod name fails the pod
filters; otherwise, for each candidate status (container statuses, then init
statuses when enabled, then ephemeral statuses when enabled) that survives the
container filters, in list order, ADD iff some matcher accepts its state and
REMOVE otherwise.  In particular a surviving candidate whose state no matcher
accepts yields REMOVE for its target. -/
theorem C2_watch_added_modified {σ : Type} (a : WatchArgs σ) (e : Event σ) (pod : Pod σ)
    (hobj : e.Object = some (Object.pod pod))
    (htype : e.Type_ = EventType.Added ∨ e.Type_ = EventType.Modified) :
    watchEvent a e = some (specAddedModified a pod) ∧
    (specPodPasses a pod.Name = false → watchEvent a e = some []) ∧
    (specPodPasses a pod.Name = true →
      watchEvent a e = some (((specCandidates a pod).filter
        (fun c => specSurvives a c.Name)).map (specClassify a pod))) ∧
    (∀ c ∈ specCandidates a pod, specPodPasses a pod.Name = true →
      specSurvives a c.Name = true →
      (∀ m ∈ a.containerStates, m.Match c.State = false) →
      specClassify a pod c = Decision.removed (specTarget pod c.Name) ∧
      ∃ ds, watchEvent a e = some ds ∧ Decision.removed (specTarget pod c.Name) ∈ ds) := by
  have hmain := watchEvent_added_modified_eq a e pod hobj htype
  refine ⟨hmain, ?_, ?_, ?_⟩
  · intro hp
    rw [hmain]
    simp [specAddedModified, hp]
  · intro hp
    rw [hmain]
    simp [specAddedModified, hp]
  · intro c hc hp hs hm
    have hcl : specClassify a pod c = Decision.removed (specTarget pod c.Name) := by
      have : a.containerStates.any (fun m => m.Match c.State) = false := by
        rw [List.any_eq_false]
        intro m hmem
        simp [hm m hmem]
      simp [specClassify, this]
    refine ⟨hcl, _, hmain, ?_⟩
    simp only [specAddedModified, hp, if_true]
    rw [← hcl]
    exact List.mem_map_of_mem _ (List.mem_filter.mpr ⟨hc, hs⟩)

/-- C2 at a concrete Modified event: `app` (state accepted) is added, `sidecar`
is excluded, `init` (state accepted by no matcher) is removed, and the ephemeral
container is not a candidate. -/
theorem C2_watch_added_modified_witness :
    watchEvent exArgs { Type_ := EventType.Modified, Object := some (Object.pod exPod) } =
      some [Decision.added (exTarget "app"), Decision.removed (exTarget "init")] :=
  (C2_watch_added_modified exArgs
    { Type_ := EventType.Modified, Object := some (Object.pod exPod) } exPod rfl
    (Or.inr rfl)).1.trans (by decide)

/-- C3. For a Deleted event of a pod whose name passes the pod filters, `Watch`
emits exactly one REMOVE, and no ADD, per container name declared in the pod's
spec (containers, then init containers when enabled, then ephemeral containers
when enabled) that survives the container filters, in list order.  The result
depends neither on the pod's status nor on the state matchers. -/
theorem C3_watch_deleted {σ : Type} (a : WatchArgs σ) (e : Event σ) (pod : Pod σ)
    (hobj : e.Object = some (Object.pod pod))
    (htype : e.Type_ = EventType.Deleted)
    (hpass : specPodPasses a pod.Name = true) :
    watchEvent a e = some (specDeleted a pod) ∧
    (∀ t, Decision.added t ∉ specDeleted a pod) ∧
    (∀ d, d ∈ specDeleted a pod ↔
      ∃ cn ∈ specDeclaredNames a.initContainers a.ephemeralContainers pod.Spec,
        specSurvives a cn = true ∧ d = Decision.removed (specTarget pod cn)) ∧
    (∀ (status : PodStatus σ) (states : List (ContainerState σ)),
      watchEvent { a with containerStates := states }
        { Type_ := EventType.Deleted
          Object := some (Object.pod { pod with Status := status }) } =
        watchEvent a e) := by
  have hmain := watchEvent_deleted_eq a e pod hobj htype hpass
  refine ⟨hmain, ?_, ?_, ?_⟩
  · intro t ht
    simp [specDeleted] at ht
  · intro d
    simp only [specDeleted, List.mem_map, List.mem_filter]
    constructor
    · rintro ⟨cn, ⟨h1, h2⟩, h3⟩
      exact ⟨cn, h1, h2, h3.symm⟩
    · rintro ⟨cn, h1, h2, h3⟩
      exact ⟨cn, ⟨h1, h2⟩, h3.symm⟩
  · intro status states
    rw [hmain]
    exact watchEvent_deleted_eq { a with containerStates := states } _
      { pod with Status := status } rfl rfl hpass

/-- C3 at a concrete Deleted event: REMOVE for `app` and `init`, from the spec
of the pod, whatever its status says. -/
theorem C3_watch_deleted_witness :
    specPodPasses exArgs exPod.Name = true ∧
    watchEvent exArgs { Type_ := EventType.Deleted, Object := some (Object.pod exPod) } =
      some [Decision.removed (exTarget "app"), Decision.removed (exTarget "init")] :=
  ⟨by decide,
   (C3_watch_deleted exArgs
    { Type_ := EventType.Deleted, Object := some (Object.pod exPod) } exPod rfl rfl
    (by decide)).1.trans (by decide)⟩

theorem excludeLoop_eq_any (rs : List Regexp) (str : GoString) :
    excludeLoop rs str = rs.any (fun r => r.MatchString str) := by
  induction rs with
  | nil => rfl
  | cons r rest ih => by_cases h : r.MatchString str <;> simp [excludeLoop, h, ih]

theorem includeLoop_eq_any (rs : List Regexp) (str : GoString) :
    includeLoop rs str = rs.any (fun r => r.MatchString str) := by
  induction rs with
  | nil => rfl
  | cons r rest ih => by_cases h : r.MatchString str <;> simp [includeLoop, h, ih]

theorem scanLoop_eq (options : TailOptions) (containerPrefix : GoString)
    (input : List GoString) :
    scanLoop options containerPrefix input =
      (input.filter (specForwarded options)).map
        (fun line => { Prefix := containerPrefix, Msg := line }) := by
  induction input with
  | nil => rfl
  | cons line rest ih =>
    unfold scanLoop
    simp only [HasPrefix, excludeLoop_eq_any, includeLoop_eq_any, ih]
    by_cases h1 : rpcErrorNoSuchContainerBytes.isPrefixOf line = true
    · simp [specForwarded, h1]
    · by_cases h2 : options.Exclude.any (fun r => r.MatchString line) = true
      · simp [specForwarded, h1, h2]
      · cases hi : options.Include with
        | nil => simp [specForwarded, h1, h2, hi]
        | cons r rs =>
          by_cases h3 : (r :: rs).any (fun r => r.MatchString line) = true
          · simp [specForwarded, h1, h2, hi, h3]
          · simp [specForwarded, h1, h2, hi, h3]

/-- C4. The lines a tail worker sends downstream are exactly the raw lines that
(1) do not begin with the synthetic runtime message, (2) are matched by no
exclude pattern and (3) are matched by some include pattern unless the include
list is empty; each is sent as `Line{Prefix: the worker's prefix, Msg: the raw
line}`, in the order read.  The synthetic message is never forwarded, and with
exclude `ERROR` the lines `INFO ok`, `ERROR bad` forward exactly `INFO ok`. -/
theorem C4_scanLoop_filter (options : TailOptions) (containerPrefix : GoString)
    (input : List GoString) :
    scanLoop options containerPrefix input =
      (input.filter (specForwarded options)).map
        (fun line => { Prefix := containerPrefix, Msg := line }) ∧
    (∀ line, specForwarded options line = true ↔
      (HasPrefix line rpcErrorNoSuchContainerBytes = false ∧
       (∀ r ∈ options.Exclude, r.MatchString line = false) ∧
       (options.Include = [] ∨ ∃ r ∈ options.Include, r.MatchString line = true))) ∧
    ((scanLoop options containerPrefix input).map (fun l => l.Msg)).Sublist input ∧
    (∀ l ∈ scanLoop options containerPrefix input,
      l.Prefix = containerPrefix ∧ HasPrefix l.Msg rpcErrorNoSuchContainerBytes = false) ∧
    (∀ rest, scanLoop options containerPrefix
        [rpcErrorNoSuchContainerBytes ++ rest] = []) ∧
    scanLoop exOptions containerPrefix [bytes "INFO ok", bytes "ERROR bad"] =
      [{ Prefix := containerPrefix, Msg := bytes "INFO ok" }] := by
  have hmain := scanLoop_eq options containerPrefix input
  have hchar : ∀ line, specForwarded options line = true ↔
      (HasPrefix line rpcErrorNoSuchContainerBytes = false ∧
       (∀ r ∈ options.Exclude, r.MatchString line = false) ∧
       (options.Include = [] ∨ ∃ r ∈ options.Include, r.MatchString line = true)) := by
    intro line
    simp [specForwarded, HasPrefix, List.isEmpty_iff]
    tauto
  refine ⟨hmain, hchar, ?_, ?_, ?_, ?_⟩
  · rw [hmain, List.map_map]
    have : ((fun l : Line => l.Msg) ∘ fun line => ({ Prefix := containerPrefix, Msg := line } : Line))
        = id := rfl
    rw [this, List.map_id]
    exact List.filter_sublist _
  · intro l hl
    rw [hmain] at hl
    simp only [List.mem_map, List.mem_filter] at hl
    obtain ⟨line, ⟨_, hf⟩, rfl⟩ := hl
    exact ⟨rfl, ((hchar line).mp hf).1⟩
  · intro rest
    have : HasPrefix (rpcErrorNoSuchContainerBytes ++ rest) rpcErrorNoSuchContainerBytes = true := by
      simp [HasPrefix]
    simp [scanLoop, this]
  · rw [scanLoop_eq]
    have h1 : specForwarded exOptions (bytes "INFO ok") = true := by decide
    have h2 : specForwarded exOptions (bytes "ERROR bad") = false := by decide
    simp [List.filter, h1, h2]

/-! ## Strings -/

theorem Compare_cases (a b : GoString) :
    Compare a b = -1 ∨ Compare a b = 0 ∨ Compare a b = 1 := by
  induction a generalizing b with
  | nil => cases b <;> simp [Compare]
  | cons x xs ih =>
    cases b with
    | nil => simp [Compare]
    | cons y ys =>
      unfold Compare
      split_ifs
      · simp
      · simp
      · exact ih ys

theorem Compare_eq_zero_iff (a b : GoString) : Compare a b = 0 ↔ a = b := by
  induction a generalizing b with
  | nil => cases b <;> simp [Compare]
  | cons x xs ih =>
    cases b with
    | nil => simp [Compare]
    | cons y ys =>
      unfold Compare
      split_ifs with h1 h2
      · simp; omega
      · simp; omega
      · have : x = y := by omega
        simp [ih, this]

theorem Compare_neg_iff_lex (a b : GoString) : Compare a b < 0 ↔ lexLt a b := by
  unfold lexLt
  induction a generalizing b with
  | nil =>
    cases b with
    | nil => simp [Compare, List.Lex.not_nil_right]
    | cons y ys => simp [Compare, List.Lex.nil]
  | cons x xs ih =>
    cases b with
    | nil => simp [Compare, List.Lex.not_nil_right]
    | cons y ys =>
      unfold Compare
      split_ifs with h1 h2
      · simp [List.Lex.rel h1]
      · simp only [show ¬ ((1 : Int) < 0) by decide, false_iff]
        intro h
        cases h with
        | cons h => omega
        | rel h => omega
      · have hxy : x = y := by omega
        subst hxy
        rw [ih ys]
        constructor
        · exact List.Lex.cons
        · intro h
          cases h with
          | cons h => exact h
          | rel h => omega

theorem Compare_swap (a b : GoString) : Compare b a = -Compare a b := by
  induction a generalizing b with
  | nil => cases b <;> simp [Compare]
  | cons x xs ih =>
    cases b with
    | nil => simp [Compare]
    | cons y ys =>
      unfold Compare
      split_ifs <;> first | omega | simp | exact ih ys

theorem lexLt_irrefl (a : GoString) : ¬ lexLt a a := by
  rw [← Compare_neg_iff_lex, (Compare_eq_zero_iff a a).mpr rfl]
  decide

theorem lexLt_asymm {a b : GoString} (h : lexLt a b) : ¬ lexLt b a := by
  rw [← Compare_neg_iff_lex] at *
  rw [Compare_swap]
  omega

theorem lexLt_trans {a b c : GoString} (h1 : lexLt a b) (h2 : lexLt b c) : lexLt a c := by
  unfold lexLt at *
  exact IsTrans.trans _ _ _ h1 h2

theorem lexLt_trichotomy (a b : GoString) : lexLt a b ∨ a = b ∨ lexLt b a := by
  rcases Compare_cases a b with h | h | h
  · left; rw [← Compare_neg_iff_lex]; omega
  · right; left; exact (Compare_eq_zero_iff a b).mp h
  · right; right; rw [← Compare_neg_iff_lex, Compare_swap]; omega


theorem IndexByte_ge_neg_one (s : GoString) (c : Nat) : -1 ≤ IndexByte s c := by
  induction s with
  | nil => simp [IndexByte]
  | cons b rest ih =>
    unfold IndexByte
    simp only
    split_ifs <;> omega

theorem IndexByte_spec (s : GoString) (c : Nat) :
    (IndexByte s c < 0 → s.takeWhile (fun b => b ≠ c) = s) ∧
    (0 ≤ IndexByte s c → s.take (IndexByte s c).toNat = s.takeWhile (fun b => b ≠ c)) := by
  induction s with
  | nil => simp [IndexByte]
  | cons b rest ih =>
    have hge := IndexByte_ge_neg_one rest c
    unfold IndexByte
    by_cases hb : b = c
    · simp [hb]
    · by_cases hr : IndexByte rest c < 0
      · simp only [hb, hr, if_false, if_true]
        constructor
        · intro _
          rw [List.takeWhile_cons]
          simp only [ne_eq, hb, not_false_eq_true, decide_True, if_true]
          rw [ih.1 hr]
        · intro h; omega
      · have h0 : 0 ≤ IndexByte rest c := by omega
        have hnat : (IndexByte rest c + 1).toNat = (IndexByte rest c).toNat + 1 := by omega
        simp only [hb, hr, if_false]
        constructor
        · intro h; omega
        · intro _
          rw [hnat, List.take_succ_cons, ih.2 h0]
          simp [hb]

theorem Line.ts_eq_leadingToken (l : Line) : l.ts = leadingToken l.Msg := by
  unfold Line.ts leadingToken
  have h := IndexByte_spec l.Msg 32
  by_cases h0 : IndexByte l.Msg 32 ≥ 0
  · simp only [h0, if_true]
    exact h.2 h0
  · simp only [h0, if_false]
    exact (h.1 (by omega)).symm

theorem Line.less_iff_keyLt (x y : Line) :
    x.less y = true ↔ keyLt (sortKey x) (sortKey y) := by
  unfold Line.less keyLt sortKey strLess
  simp only [Line.ts_eq_leadingToken]
  by_cases h : Compare (leadingToken x.Msg) (leadingToken y.Msg) = 0
  · have heq := (Compare_eq_zero_iff _ _).mp h
    simp only [h, ne_eq, not_true_eq_false, if_false, decide_eq_true_eq, Compare_neg_iff_lex]
    constructor
    · intro hp; exact Or.inr ⟨heq, hp⟩
    · rintro (hl | ⟨_, hp⟩)
      · rw [heq] at hl; exact absurd hl (lexLt_irrefl _)
      · exact hp
  · have hne : leadingToken x.Msg ≠ leadingToken y.Msg := fun he =>
      h ((Compare_eq_zero_iff _ _).mpr he)
    simp only [h, ne_eq, not_false_eq_true, if_true, decide_eq_true_eq, Compare_neg_iff_lex]
    constructor
    · intro hl; exact Or.inl hl
    · rintro (hl | ⟨he, _⟩)
      · exact hl
      · exact absurd he hne

theorem keyLt_irrefl (k : GoString × GoString) : ¬ keyLt k k := by
  rintro (h | ⟨_, h⟩) <;> exact lexLt_irrefl _ h

theorem keyLt_trans {a b c : GoString × GoString} (h1 : keyLt a b) (h2 : keyLt b c) :
    keyLt a c := by
  rcases h1 with h1 | ⟨e1, h1⟩ <;> rcases h2 with h2 | ⟨e2, h2⟩
  · exact Or.inl (lexLt_trans h1 h2)
  · exact Or.inl (e2 ▸ h1)
  · exact Or.inl (e1 ▸ h2)
  · exact Or.inr ⟨e1.trans e2, lexLt_trans h1 h2⟩

theorem keyLt_trichotomy (a b : GoString × GoString) : keyLt a b ∨ a = b ∨ keyLt b a := by
  rcases lexLt_trichotomy a.1 b.1 with h | h | h
  · exact Or.inl (Or.inl h)
  · rcases lexLt_trichotomy a.2 b.2 with h2 | h2 | h2
    · exact Or.inl (Or.inr ⟨h, h2⟩)
    · exact Or.inr (Or.inl (Prod.ext h h2))
    · exact Or.inr (Or.inr (Or.inr ⟨h.symm, h2⟩))
  · exact Or.inr (Or.inr (Or.inl h))

theorem Line.less_eq_false_iff (x y : Line) :
    x.less y = false ↔ ¬ keyLt (sortKey x) (sortKey y) := by
  rw [← Line.less_iff_keyLt]; simp

/-- Two lines are incomparable under `Less` exactly when their keys are equal. -/
theorem Line.incomparable_iff (x y : Line) :
    (x.less y = false ∧ y.less x = false) ↔ sortKey x = sortKey y := by
  rw [Line.less_eq_false_iff, Line.less_eq_false_iff]
  constructor
  · rintro ⟨h1, h2⟩
    rcases keyLt_trichotomy (sortKey x) (sortKey y) with h | h | h
    · exact absurd h h1
    · exact h
    · exact absurd h h2
  · intro h
    rw [h]
    exact ⟨keyLt_irrefl _, keyLt_irrefl _⟩

theorem Line.less_strictWeakOrder : StrictWeakOrder Line.less where
  irrefl a := (Line.less_eq_false_iff a a).mpr (keyLt_irrefl _)
  trans a b c h1 h2 := by
    rw [Line.less_iff_keyLt] at *
    exact keyLt_trans h1 h2
  incomp_trans a b c h1 h2 h3 h4 := by
    have e1 := (Line.incomparable_iff a b).mp ⟨h1, h2⟩
    have e2 := (Line.incomparable_iff b c).mp ⟨h3, h4⟩
    exact (Line.incomparable_iff a c).mpr (e1.trans e2)

/-! ## The stable sort -/

theorem StrictWeakOrder.asymm {α : Type} {less : α → α → Bool} (h : StrictWeakOrder less)
    {a b : α} (hab : less a b = true) : less b a = false := by
  cases hba : less b a
  · rfl
  · have := h.trans a b a hab hba
    rw [h.irrefl a] at this
    exact absurd this (by decide)

/-- Negative transitivity of a strict weak order. -/
theorem StrictWeakOrder.neg_trans {α : Type} {less : α → α → Bool}
    (h : StrictWeakOrder less) {a b c : α}
    (hab : less a b = false) (hbc : less b c = false) : less a c = false := by
  cases hac : less a c
  · rfl
  · exfalso
    cases hba : less b a
    · cases hcb : less c b
      · have := (h.incomp_trans a b c hab hba hbc hcb).1
        rw [hac] at this
        exact absurd this (by decide)
      · have := h.trans a c b hac hcb
        rw [hab] at this
        exact absurd this (by decide)
    · have := h.trans b a c hba hac
      rw [hbc] at this
      exact absurd this (by decide)

theorem sink_perm {α : Type} (less : α → α → Bool) (x : α) (rev : List α) :
    (sink less x rev).Perm (x :: rev) := by
  induction rev with
  | nil => exact List.Perm.refl _
  | cons y rest ih =>
    unfold sink
    split_ifs
    · exact (List.Perm.cons y ih).trans (List.Perm.swap x y rest)
    · exact List.Perm.refl _

theorem sink_pairwise {α : Type} {less : α → α → Bool} (h : StrictWeakOrder less)
    (x : α) (rev : List α) (hrev : rev.Pairwise (fun a b => less a b = false)) :
    (sink less x rev).Pairwise (fun a b => less a b = false) := by
  induction rev with
  | nil => simp [sink]
  | cons y rest ih =>
    rw [List.pairwise_cons] at hrev
    unfold sink
    split_ifs with hxy
    · rw [List.pairwise_cons]
      refine ⟨?_, ih hrev.2⟩
      intro z hz
      rcases List.mem_cons.mp ((sink_perm less x rest).subset hz) with hzx | hzr
      · rw [hzx]; exact h.asymm hxy
      · exact hrev.1 z hzr
    · have hxy' : less x y = false := by simpa using hxy
      rw [List.pairwise_cons]
      refine ⟨?_, List.pairwise_cons.mpr hrev⟩
      intro z hz
      rcases List.mem_cons.mp hz with hzy | hzr
      · rw [hzy]; exact hxy'
      · exact h.neg_trans hxy' (hrev.1 z hzr)

theorem sink_filter {α : Type} (less : α → α → Bool) (c : α → Bool)
    (hc : ∀ a b, c a = true → c b = true → less a b = false) (x : α) (rev : List α) :
    (sink less x rev).filter c = (x :: rev).filter c := by
  induction rev with
  | nil => rfl
  | cons y rest ih =>
    unfold sink
    split_ifs with hxy
    · rw [List.filter_cons, ih]
      cases hcx : c x <;> cases hcy : c y
      · simp [List.filter_cons, hcx, hcy]
      · simp [List.filter_cons, hcx, hcy]
      · simp [List.filter_cons, hcx, hcy]
      · have := hc x y hcx hcy
        rw [hxy] at this
        exact absurd this (by decide)
    · rfl

theorem sink_map {α β : Type} (less : α → α → Bool) (f : β → α) (x : β) (rev : List β) :
    (sink (fun a b => less (f a) (f b)) x rev).map f = sink less (f x) (rev.map f) := by
  induction rev with
  | nil => rfl
  | cons y rest ih =>
    unfold sink
    simp only [List.map_cons]
    split_ifs
    · simp [ih]
    · simp

theorem foldl_sink_perm {α : Type} (less : α → α → Bool) (data rev : List α) :
    (data.foldl (fun rev x => sink less x rev) rev).Perm (data.reverse ++ rev) := by
  induction data generalizing rev with
  | nil => exact List.Perm.refl _
  | cons x rest ih =>
    simp only [List.foldl_cons, List.reverse_cons, List.append_assoc, List.singleton_append]
    exact (ih _).trans (List.Perm.append_left _ (sink_perm less x rev))

theorem foldl_sink_pairwise {α : Type} {less : α → α → Bool} (h : StrictWeakOrder less)
    (data rev : List α) (hrev : rev.Pairwise (fun a b => less a b = false)) :
    (data.foldl (fun rev x => sink less x rev) rev).Pairwise (fun a b => less a b = false) := by
  induction data generalizing rev with
  | nil => exact hrev
  | cons x rest ih => exact ih _ (sink_pairwise h x rev hrev)

theorem foldl_sink_filter {α : Type} (less : α → α → Bool) (c : α → Bool)
    (hc : ∀ a b, c a = true → c b = true → less a b = false) (data rev : List α) :
    (data.foldl (fun rev x => sink less x rev) rev).filter c = (data.reverse ++ rev).filter c := by
  induction data generalizing rev with
  | nil => rfl
  | cons x rest ih =>
    simp only [List.foldl_cons, List.reverse_cons, List.append_assoc, List.singleton_append]
    rw [ih, List.filter_append, List.filter_append, sink_filter less c hc]

theorem foldl_sink_map {α β : Type} (less : α → α → Bool) (f : β → α) (data rev : List β) :
    (data.foldl (fun rev x => sink (fun a b => less (f a) (f b)) x rev) rev).map f =
      (data.map f).foldl (fun rev x => sink less x rev) (rev.map f) := by
  induction data generalizing rev with
  | nil => rfl
  | cons x rest ih =>
    simp only [List.foldl_cons, List.map_cons]
    rw [ih, sink_map]

/-- The output of `sort.Stable` is a permutation of its input. -/
theorem Stable_perm {α : Type} (less : α → α → Bool) (data : List α) :
    (Stable less data).Perm data := by
  unfold Stable insertionSort
  have := foldl_sink_perm less data []
  rw [List.append_nil] at this
  exact (List.reverse_perm _).trans (this.trans (List.reverse_perm _))

/-- The output of `sort.Stable` is sorted: no element is `Less` than an earlier
one. -/
theorem Stable_sorted {α : Type} {less : α → α → Bool} (h : StrictWeakOrder less)
    (data : List α) : (Stable less data).Pairwise (fun a b => less b a = false) := by
  unfold Stable insertionSort
  rw [List.pairwise_reverse]
  exact foldl_sink_pairwise h data [] List.Pairwise.nil

/-- The output of `sort.Stable` keeps the input order within every class `c` of
mutually incomparable elements. -/
theorem Stable_filter {α : Type} (less : α → α → Bool) (c : α → Bool)
    (hc : ∀ a b, c a = true → c b = true → less a b = false) (data : List α) :
    (Stable less data).filter c = data.filter c := by
  unfold Stable insertionSort
  rw [List.filter_reverse, foldl_sink_filter less c hc, List.append_nil, List.filter_reverse,
    List.reverse_reverse]

/-- Sorting tagged elements and forgetting the tags is sorting the elements. -/
theorem Stable_map {α β : Type} (less : α → α → Bool) (f : β → α) (data : List β) :
    (Stable (fun a b => less (f a) (f b)) data).map f = Stable less (data.map f) := by
  unfold Stable insertionSort
  rw [List.map_reverse, foldl_sink_map]
  rfl

theorem stable_unique_aux {α : Type} {less : α → α → Bool} (h : StrictWeakOrder less)
    (out1 out2 : List α)
    (s1 : out1.Pairwise (fun a b => less b a = false))
    (s2 : out2.Pairwise (fun a b => less b a = false))
    (hst : ∀ a, out1.filter (incomparable less a) = out2.filter (incomparable less a)) :
    out1 = out2 := by
  have hrefl : ∀ a, incomparable less a a = true := fun a => by
    simp [incomparable, h.irrefl a]
  induction out1 generalizing out2 with
  | nil =>
    cases out2 with
    | nil => rfl
    | cons h2 t2 =>
      have := hst h2
      simp [List.filter_cons, hrefl] at this
  | cons h1 t1 ih =>
    cases out2 with
    | nil =>
      have := hst h1
      simp [List.filter_cons, hrefl] at this
    | cons h2 t2 =>
      rw [List.pairwise_cons] at s1 s2
      have hhead : h1 = h2 := by
        cases hc : incomparable less h1 h2
        · exfalso
          have hc' : incomparable less h2 h1 = false := by
            simp only [incomparable] at hc ⊢
            rw [Bool.and_comm]; exact hc
          have e1 := hst h1
          simp only [List.filter_cons, hrefl, hc, if_true, Bool.false_eq_true, if_false] at e1
          have m1 : h1 ∈ t2 := by
            have : h1 ∈ List.filter (incomparable less h1) t2 := by
              rw [← e1]; exact List.mem_cons_self _ _
            exact (List.mem_filter.mp this).1
          have e2 := hst h2
          simp only [List.filter_cons, hrefl, hc', if_true, Bool.false_eq_true, if_false] at e2
          have m2 : h2 ∈ t1 := by
            have : h2 ∈ List.filter (incomparable less h2) t1 := by
              rw [e2]; exact List.mem_cons_self _ _
            exact (List.mem_filter.mp this).1
          have l1 := s2.1 h1 m1
          have l2 := s1.1 h2 m2
          simp [incomparable, l1, l2] at hc
        · have e1 := hst h1
          simp only [List.filter_cons, hrefl, hc, if_true, Bool.false_eq_true, if_false] at e1
          exact (List.cons.inj e1).1
      subst hhead
      congr 1
      apply ih t2 s1.2 s2.2
      intro a
      have e := hst a
      simp only [List.filter_cons] at e
      cases hc : incomparable less a h1
      · simpa [hc] using e
      · simp only [hc, if_true] at e
        exact (List.cons.inj e).2

/-- The contract of a stable sort determines its output: a list that is sorted
and keeps the input order within every class of incomparable elements is the
list computed by `Stable`. -/
theorem stable_sort_unique {α : Type} {less : α → α → Bool} (h : StrictWeakOrder less)
    (data out : List α)
    (hsorted : out.Pairwise (fun a b => less b a = false))
    (hstable : ∀ a, out.filter (incomparable less a) = data.filter (incomparable less a)) :
    out = Stable less data := by
  apply stable_unique_aux h out (Stable less data) hsorted (Stable_sorted h data)
  intro a
  rw [hstable a]
  symm
  apply Stable_filter
  intro x y hx hy
  simp only [incomparable, Bool.and_eq_true, Bool.not_eq_true'] at hx hy
  exact (h.incomp_trans x a y hx.2 hx.1 hy.1 hy.2).1

theorem multiplex_all (buffer : List Line) :
    multiplex buffer buffer.length = Stable Line.less buffer := by
  simp [multiplex]

theorem Line.less_of_same_key (k : GoString × GoString) (a b : Line)
    (ha : decide (sortKey a = k) = true) (hb : decide (sortKey b = k) = true) :
    a.less b = false := by
  have ha' : sortKey a = k := by simpa using ha
  have hb' : sortKey b = k := by simpa using hb
  exact ((Line.incomparable_iff a b).mpr (ha'.trans hb'.symm)).1

set_option maxRecDepth 100000 in
theorem multiplex_web_lines :
    multiplex [exLineWeb2, exLineWeb1] 2 = [exLineWeb1, exLineWeb2] := by
  decide

/-- C5. The list printed at the end of the startup window is the stable sort of
the buffer under `LineSlice.Less`: (a) a permutation of the buffer, (b) sorted
by the key (leading token, then prefix) under bytewise lexicographic order,
between any two printed lines and so between consecutive ones, (c) with lines
of equal key in arrival order, also when every line carries an arrival tag.
`LineSlice.Less` is a strict weak order, namely "smaller key", so the contract
determines the printed list.  The `web-2` line buffered before the `web-1`
line is printed after it. -/
theorem C5_startup_sort (buffer : List Line) :
    multiplex buffer buffer.length = Stable Line.less buffer ∧
    (Stable Line.less buffer).Perm buffer ∧
    (Stable Line.less buffer).Pairwise (fun x y => ¬ keyLt (sortKey y) (sortKey x)) ∧
    (Stable Line.less buffer).Chain' (fun x y => ¬ keyLt (sortKey y) (sortKey x)) ∧
    (∀ k, (Stable Line.less buffer).filter (fun l => decide (sortKey l = k)) =
      buffer.filter (fun l => decide (sortKey l = k))) ∧
    (∀ (τ : Type) (tagged : List (Line × τ)), tagged.map Prod.fst = buffer →
      (multiplexTagged tagged tagged.length).map Prod.fst = Stable Line.less buffer ∧
      ∀ k, (multiplexTagged tagged tagged.length).filter (fun l => decide (sortKey l.1 = k)) =
        tagged.filter (fun l => decide (sortKey l.1 = k))) ∧
    StrictWeakOrder Line.less ∧
    (∀ x y, Line.less x y = true ↔ keyLt (sortKey x) (sortKey y)) ∧
    (∀ out : List Line, out.Pairwise (fun a b => Line.less b a = false) →
      (∀ a, out.filter (incomparable Line.less a) = buffer.filter (incomparable Line.less a)) →
      out = Stable Line.less buffer) ∧
    multiplex [exLineWeb2, exLineWeb1] 2 = [exLineWeb1, exLineWeb2] := by
  have hsorted := Stable_sorted Line.less_strictWeakOrder buffer
  have hpw : (Stable Line.less buffer).Pairwise
      (fun x y => ¬ keyLt (sortKey y) (sortKey x)) :=
    hsorted.imp (fun {a b} hab => (Line.less_eq_false_iff b a).mp hab)
  refine ⟨multiplex_all buffer, Stable_perm _ _, hpw, hpw.chain', ?_, ?_,
    Line.less_strictWeakOrder, Line.less_iff_keyLt, ?_, multiplex_web_lines⟩
  · intro k
    exact Stable_filter Line.less _ (Line.less_of_same_key k) buffer
  · intro τ tagged htag
    have hlen : multiplexTagged tagged tagged.length =
        Stable (fun x y : Line × τ => Line.less x.1 y.1) tagged := by
      simp [multiplexTagged]
    rw [hlen]
    refine ⟨?_, ?_⟩
    · rw [Stable_map Line.less Prod.fst tagged, htag]
    · intro k
      exact Stable_filter _ _ (fun a b ha hb => Line.less_of_same_key k a.1 b.1 ha hb) tagged
  · intro out hs hst
    exact stable_sort_unique Line.less_strictWeakOrder buffer out hs hst

set_option maxRecDepth 100000 in
theorem multiplex_app_lines :
    multiplex [exLineFirst, exLineSecond] 2 = [exLineSecond, exLineFirst] := by
  decide

/-- C6 (code bug). A worker with prefix `app` produces `server starting` and
then `listening on 8080`, both inside the startup window: the multiplexer
prints `listening on 8080` first.  So the lines of one prefix are not always
printed in the order produced. -/
theorem C6_per_target_order_broken :
    exLineFirst.Prefix = exLineSecond.Prefix ∧
    multiplex [exLineFirst, exLineSecond] 2 = [exLineSecond, exLineFirst] ∧
    ¬ (∀ (received : List Line) (k : Nat) (p : GoString),
        (multiplex received k).filter (fun l => decide (l.Prefix = p)) =
          received.filter (fun l => decide (l.Prefix = p))) := by
  refine ⟨rfl, multiplex_app_lines, ?_⟩
  intro h
  have := h [exLineFirst, exLineSecond] 2 (bytes "app")
  rw [multiplex_app_lines] at this
  revert this
  decide

/-- In the steady state (no line buffered) the multiplexer prints the lines in
arrival order. -/
theorem multiplex_steady (received : List Line) : multiplex received 0 = received := by
  simp [multiplex, Stable, insertionSort]

/-- The lines received after the startup window are printed after the buffered
ones, in arrival order. -/
theorem multiplex_drop (received : List Line) (k : Nat) :
    (multiplex received k).drop (min k received.length) = received.drop k := by
  have hlen : (Stable Line.less (received.take k)).length = min k received.length := by
    rw [(Stable_perm _ _).length_eq, List.length_take]
  simp only [multiplex]
  rw [← hlen, List.drop_left]

theorem leadingToken_of_no_space (msg : GoString) (h : 32 ∉ msg) : leadingToken msg = msg := by
  unfold leadingToken
  rw [List.takeWhile_eq_self_iff]
  intro b hb
  have : b ≠ 32 := fun e => h (e ▸ hb)
  simpa using this

set_option maxRecDepth 100000 in
theorem Stable_started_lines :
    Stable Line.less [exStarted2, exStarted1] = [exStarted1, exStarted2] := by
  decide

/-- C7, as stated, fails: `started` from `web-2` and then `started` from `web-1`,
two messages without a space and with equal text, are printed `web-1` first,
not in arrival order. -/
theorem C7_counterexample :
    (∀ l ∈ [exStarted2, exStarted1], 32 ∉ l.Msg) ∧
    exStarted2.Msg = exStarted1.Msg ∧
    Stable Line.less [exStarted2, exStarted1] = [exStarted1, exStarted2] ∧
    ¬ (∀ buffer : List Line, (∀ l ∈ buffer, 32 ∉ l.Msg) →
        ∀ m : GoString, (Stable Line.less buffer).filter (fun l => decide (l.Msg = m)) =
          buffer.filter (fun l => decide (l.Msg = m))) := by
  refine ⟨by decide, rfl, Stable_started_lines, ?_⟩
  intro h
  have := h [exStarted2, exStarted1] (by decide) (bytes "started")
  rw [Stable_started_lines] at this
  revert this
  decide

/-- C7, amended. When no buffered message contains a space, the key of a line is
(whole `Msg`, `Prefix`): the stable sort prints a permutation of the buffer
ordered by the full `Msg` text, lines of equal `Msg` ordered by `Prefix`, and
lines of equal `Msg` and equal `Prefix` in arrival order. -/
theorem C7_no_space_sort (buffer : List Line) (hns : ∀ l ∈ buffer, 32 ∉ l.Msg) :
    (Stable Line.less buffer).Perm buffer ∧
    (∀ l ∈ Stable Line.less buffer, sortKey l = (l.Msg, l.Prefix)) ∧
    (Stable Line.less buffer).Pairwise (fun x y =>
      ¬ lexLt y.Msg x.Msg ∧ (x.Msg = y.Msg → ¬ lexLt y.Prefix x.Prefix)) ∧
    (∀ x y, x ∈ buffer → y ∈ buffer →
      (Line.less x y = true ↔
        lexLt x.Msg y.Msg ∨ (x.Msg = y.Msg ∧ lexLt x.Prefix y.Prefix))) ∧
    (∀ (τ : Type) (tagged : List (Line × τ)), tagged.map Prod.fst = buffer →
      (Stable (fun x y : Line × τ => Line.less x.1 y.1) tagged).map Prod.fst =
        Stable Line.less buffer ∧
      ∀ m p, (Stable (fun x y : Line × τ => Line.less x.1 y.1) tagged).filter
          (fun l => decide (l.1.Msg = m ∧ l.1.Prefix = p)) =
        tagged.filter (fun l => decide (l.1.Msg = m ∧ l.1.Prefix = p))) := by
  have hperm := Stable_perm Line.less buffer
  have hkey : ∀ l ∈ buffer, sortKey l = (l.Msg, l.Prefix) := fun l hl => by
    simp [sortKey, leadingToken_of_no_space l.Msg (hns l hl)]
  have hkey' : ∀ l ∈ Stable Line.less buffer, sortKey l = (l.Msg, l.Prefix) :=
    fun l hl => hkey l (hperm.subset hl)
  have hsorted := Stable_sorted Line.less_strictWeakOrder buffer
  refine ⟨hperm, hkey', ?_, ?_, ?_⟩
  · rw [List.pairwise_iff_forall_sublist] at hsorted ⊢
    intro x y hxy
    have hx : x ∈ Stable Line.less buffer := hxy.subset (by simp)
    have hy : y ∈ Stable Line.less buffer := hxy.subset (by simp)
    have hn := (Line.less_eq_false_iff y x).mp (hsorted hxy)
    rw [hkey' x hx, hkey' y hy] at hn
    constructor
    · intro hl; exact hn (Or.inl hl)
    · intro he hl; exact hn (Or.inr ⟨he.symm, hl⟩)
  · intro x y hx hy
    rw [Line.less_iff_keyLt, hkey x hx, hkey y hy]
    rfl
  · intro τ tagged htag
    refine ⟨by rw [Stable_map Line.less Prod.fst tagged, htag], ?_⟩
    intro m p
    apply Stable_filter
    intro a b ha hb
    have ha' : a.1.Msg = m ∧ a.1.Prefix = p := by simpa using ha
    have hb' : b.1.Msg = m ∧ b.1.Prefix = p := by simpa using hb
    have hab : a.1 = b.1 := by
      cases a with | mk a1 a2 =>
      cases b with | mk b1 b2 =>
      cases a1; cases b1
      simp only at ha' hb'
      simp [ha'.1, ha'.2, hb'.1, hb'.2]
    rw [hab]
    exact Line.less_strictWeakOrder.irrefl _

/-- C7 amended, at a concrete buffer without spaces. -/
theorem C7_no_space_sort_witness :
    (∀ l ∈ [exStarted2, exStarted1], 32 ∉ l.Msg) ∧
    (Stable Line.less [exStarted2, exStarted1]).Pairwise (fun x y =>
      ¬ lexLt y.Msg x.Msg ∧ (x.Msg = y.Msg → ¬ lexLt y.Prefix x.Prefix)) :=
  ⟨by decide, (C7_no_space_sort [exStarted2, exStarted1] (by decide)).2.2.1⟩

/-! ## Target IDs -/

theorem append_sep_inj (x : Nat) (a b s t : GoString) (ha : x ∉ a) (hb : x ∉ b)
    (h : a ++ x :: s = b ++ x :: t) : a = b ∧ s = t := by
  induction a generalizing b with
  | nil =>
    cases b with
    | nil => simpa using h
    | cons y ys =>
      simp only [List.nil_append, List.cons_append, List.cons.injEq] at h
      exact absurd (h.1 ▸ List.mem_cons_self _ _) hb
  | cons z zs ih =>
    cases b with
    | nil =>
      simp only [List.nil_append, List.cons_append, List.cons.injEq] at h
      exact absurd (h.1 ▸ List.mem_cons_self _ _ : x ∈ z :: zs) ha
    | cons y ys =>
      simp only [List.cons_append, List.cons.injEq] at h
      have := ih ys (fun hm => ha (List.mem_cons_of_mem _ hm))
        (fun hm => hb (List.mem_cons_of_mem _ hm)) h.2
      exact ⟨by rw [h.1, this.1], this.2⟩

/-- The ID of `GetID` identifies the triple (namespace, pod, container) as long as
neither the namespace nor the pod name contains the separator `-`. -/
theorem GetID_injective_of_no_dash (t1 t2 : Target)
    (h1n : 45 ∉ t1.Namespace) (h1p : 45 ∉ t1.Pod)
    (h2n : 45 ∉ t2.Namespace) (h2p : 45 ∉ t2.Pod)
    (h : t1.GetID = t2.GetID) :
    t1.Namespace = t2.Namespace ∧ t1.Pod = t2.Pod ∧ t1.Container = t2.Container := by
  have hb : bytes "-" = [45] := by decide
  unfold Target.GetID at h
  rw [hb] at h
  simp only [List.append_assoc, List.singleton_append] at h
  have e1 := append_sep_inj 45 _ _ _ _ h1n h2n h
  have e2 := append_sep_inj 45 _ _ _ _ h1p h2p e1.2
  exact ⟨e1.1, e2.1, e2.2⟩

set_option maxRecDepth 100000 in
theorem run_colliding_targets :
    (RunState.init.run [RunEvent.added exTargetA, RunEvent.added exTargetB]).trace =
      [Action.Start (bytes "default-api-db-proxy")
        (NewTail 0 (bytes "default") (bytes "api") (bytes "db-proxy"))] := by
  decide

/-- C8 (code bug). Container `db-proxy` of pod `api` and container `proxy` of pod
`api-db`, both in namespace `default`, have the same ID `default-api-db-proxy`:
`GetID` is not injective on (namespace, pod, container), and when both are
added the table starts a worker for the first only. -/
theorem C8_GetID_collision :
    exTargetA.Namespace = exTargetB.Namespace ∧
    exTargetA.Pod ≠ exTargetB.Pod ∧
    exTargetA.Container ≠ exTargetB.Container ∧
    exTargetA.GetID = bytes "default-api-db-proxy" ∧
    exTargetB.GetID = bytes "default-api-db-proxy" ∧
    ¬ (∀ t1 t2 : Target, t1.GetID = t2.GetID →
        t1.Namespace = t2.Namespace ∧ t1.Pod = t2.Pod ∧ t1.Container = t2.Container) ∧
    (RunState.init.run [RunEvent.added exTargetA, RunEvent.added exTargetB]).trace =
      [Action.Start (bytes "default-api-db-proxy")
        (NewTail 0 (bytes "default") (bytes "api") (bytes "db-proxy"))] := by
  refine ⟨by decide, by decide, by decide, by decide, by decide, ?_,
    run_colliding_targets⟩
  intro h
  have := (h exTargetA exTargetB (by decide)).2.1
  revert this
  decide

/-! ## Stopping a tail -/

theorem signals_closed_waiting (sigs : List Signal) (h : Signal.ctxDone ∈ sigs) :
    TailState.signals { closed := Chan.isClosed, ctxWaiting := true } sigs = none := by
  cases sigs with
  | nil => simp at h
  | cons sig rest => cases sig <;> rfl

theorem signals_closed_done (sigs : List Signal) (h : Signal.Close ∈ sigs) :
    TailState.signals { closed := Chan.isClosed, ctxWaiting := false } sigs = none := by
  induction sigs with
  | nil => simp at h
  | cons sig rest ih =>
    cases sig with
    | Close => rfl
    | ctxDone =>
      have hr : Signal.Close ∈ rest := by simpa using h
      simp only [TailState.signals, TailState.signal]
      exact ih hr

/-- C9 (code bug). On a started tail, `Close` followed by the cancellation of
the context, or the cancellation followed by `Close`, reaches `close(t.closed)`
on the already closed channel, a panic; so does every sequence of signals that
holds both, and every sequence with two calls of `Close`. -/
theorem C9_second_stop_panics :
    TailState.started.signals [Signal.Close] =
      some { closed := Chan.isClosed, ctxWaiting := true } ∧
    TailState.started.signals [Signal.ctxDone] =
      some { closed := Chan.isClosed, ctxWaiting := false } ∧
    TailState.started.signals [Signal.Close, Signal.ctxDone] = none ∧
    TailState.started.signals [Signal.ctxDone, Signal.Close] = none ∧
    TailState.started.signals [Signal.Close, Signal.Close] = none ∧
    (∀ sigs : List Signal, Signal.Close ∈ sigs → Signal.ctxDone ∈ sigs →
      TailState.started.signals sigs = none) := by
  refine ⟨rfl, rfl, rfl, rfl, rfl, ?_⟩
  intro sigs hc hd
  cases sigs with
  | nil => simp at hc
  | cons sig rest =>
    cases sig with
    | Close =>
      have hr : Signal.ctxDone ∈ rest := by simpa using hd
      exact signals_closed_waiting rest hr
    | ctxDone =>
      have hr : Signal.Close ∈ rest := by simpa using hc
      exact signals_closed_done rest hr

/-! ## The table of tails -/

theorem mapGet_mapDelete (m : List (GoString × Tail)) (id id1 : GoString) :
    mapGet (mapDelete m id) id1 = if id = id1 then none else mapGet m id1 := by
  induction m with
  | nil => simp [mapDelete, mapGet]
  | cons e rest ih =>
    obtain ⟨k, v⟩ := e
    unfold mapDelete at ih ⊢
    by_cases hk : k = id
    · subst hk
      simp only [List.filter_cons, ne_eq, not_true_eq_false, decide_False, Bool.false_eq_true,
        if_false, ih]
      by_cases h1 : k = id1
      · simp [h1]
      · simp [h1, mapGet]
    · simp only [List.filter_cons, ne_eq, hk, not_false_eq_true, decide_True, if_true, mapGet, ih]
      by_cases h1 : id = id1
      · subst h1
        simp [hk]
      · simp [h1]

theorem mapGet_mapSet (m : List (GoString × Tail)) (id id1 : GoString) (t : Tail) :
    mapGet (mapSet m id t) id1 = if id = id1 then some t else mapGet m id1 := by
  unfold mapSet
  by_cases h : id = id1
  · simp [mapGet, h]
  · simp [mapGet, h, mapGet_mapDelete]

theorem callsFor_append (id : GoString) (tr : List Action) (a : Action) :
    callsFor id (tr ++ [a]) = if a.id = id then callsFor id tr ++ [a] else callsFor id tr := by
  unfold callsFor
  by_cases h : a.id = id <;> simp [List.filter_append, h]

theorem startedTail_snoc (cur : Option Tail) (l : List Action) (a : Action) :
    startedTail cur (l ++ [a]) =
      match a with
      | Action.Start _ t => some t
      | Action.Close _ _ => none := by
  induction l generalizing cur with
  | nil => cases a <;> rfl
  | cons b rest ih => cases b <;> simp only [List.cons_append, startedTail, List.append_eq, ih]

theorem alternating_snoc (cur : Option Tail) (l : List Action) (a : Action) :
    alternating cur (l ++ [a]) =
      (alternating cur l &&
        match startedTail cur l, a with
        | none, Action.Start _ _ => true
        | some t, Action.Close _ t1 => decide (t = t1)
        | _, _ => false) := by
  induction l generalizing cur with
  | nil => cases cur <;> cases a <;> simp [alternating, startedTail]
  | cons b rest ih =>
    cases cur <;> cases b <;>
      simp only [List.cons_append, alternating, startedTail, List.append_eq, ih, Bool.false_and,
        Bool.and_assoc]

theorem onAdd_present (s : RunState) (p : Target) (t : Tail)
    (h : mapGet s.tails p.GetID = some t) : onAdd s p = s := by
  simp [onAdd, h]

theorem onAdd_absent (s : RunState) (p : Target) (h : mapGet s.tails p.GetID = none) :
    onAdd s p =
      { tails := mapSet s.tails p.GetID (NewTail s.allocated p.Namespace p.Pod p.Container)
        allocated := s.allocated + 1
        running := s.allocated :: s.running
        trace := s.trace ++
          [Action.Start p.GetID (NewTail s.allocated p.Namespace p.Pod p.Container)] } := by
  simp [onAdd, h, NewTail]

theorem onRemove_absent (s : RunState) (p : Target) (h : mapGet s.tails p.GetID = none) :
    onRemove s p = s := by
  simp [onRemove, h]

theorem onRemove_present (s : RunState) (p : Target) (t : Tail)
    (h : mapGet s.tails p.GetID = some t) :
    onRemove s p =
      { tails := mapDelete s.tails p.GetID
        allocated := s.allocated
        running := s.running.filter (fun a => a ≠ t.addr)
        trace := s.trace ++ [Action.Close p.GetID t] } := by
  simp [onRemove, h]

theorem RunState.Inv.init : RunState.Inv [] RunState.init where
  alt _ := rfl
  sync _ := rfl
  fresh _ _ h := by simp [RunState.init, mapGet] at h
  inj _ _ _ _ h := by simp [RunState.init, mapGet] at h
  live _ _ h := by simp [RunState.init, mapGet] at h

theorem RunState.Inv.mono {evs : List RunEvent} {s : RunState} (e : RunEvent)
    (h : RunState.Inv evs s) : RunState.Inv (evs ++ [e]) s where
  alt := h.alt
  sync := h.sync
  fresh := h.fresh
  inj := h.inj
  live id t ht := by
    rcases h.live id t ht with hl | hl
    · exact Or.inl hl
    · exact Or.inr (List.mem_append_left _ hl)

theorem RunState.Inv.onAdd {evs : List RunEvent} {s : RunState} (h : RunState.Inv evs s)
    (p : Target) : RunState.Inv (evs ++ [RunEvent.added p]) (onAdd s p) := by
  cases hg : mapGet s.tails p.GetID with
  | some t =>
    rw [onAdd_present s p t hg]
    exact h.mono _
  | none =>
    rw [onAdd_absent s p hg]
    have hm := h.mono (RunEvent.added p)
    refine ⟨?_, ?_, ?_, ?_, ?_⟩
    · intro id
      simp only [callsFor_append, Action.id]
      by_cases hid : p.GetID = id
      · subst hid
        simp only [if_true, alternating_snoc, h.alt, h.sync, hg, Bool.and_self]
      · simp only [hid, if_false, h.alt]
    · intro id
      simp only [callsFor_append, Action.id, mapGet_mapSet]
      by_cases hid : p.GetID = id
      · simp only [hid, if_true, startedTail_snoc]
      · simp only [hid, if_false, h.sync]
    · intro id t ht
      simp only [mapGet_mapSet] at ht
      by_cases hid : p.GetID = id
      · simp only [hid, if_true, Option.some.injEq] at ht
        subst ht
        simp [NewTail]
      · simp only [hid, if_false] at ht
        exact Nat.lt_succ_of_lt (h.fresh id t ht)
    · intro id1 id2 t1 t2 h1 h2 he
      simp only [mapGet_mapSet] at h1 h2
      by_cases hid1 : p.GetID = id1 <;> by_cases hid2 : p.GetID = id2
      · exact hid1.symm.trans hid2
      · simp only [hid1, if_true, Option.some.injEq] at h1
        simp only [hid2, if_false] at h2
        have := h.fresh id2 t2 h2
        subst h1
        simp only [NewTail] at he
        omega
      · simp only [hid2, if_true, Option.some.injEq] at h2
        simp only [hid1, if_false] at h1
        have := h.fresh id1 t1 h1
        subst h2
        simp only [NewTail] at he
        omega
      · simp only [hid1, if_false] at h1
        simp only [hid2, if_false] at h2
        exact h.inj id1 id2 t1 t2 h1 h2 he
    · intro id t ht
      simp only [mapGet_mapSet] at ht
      by_cases hid : p.GetID = id
      · simp only [hid, if_true, Option.some.injEq] at ht
        subst ht
        exact Or.inl (by simp [NewTail])
      · simp only [hid, if_false] at ht
        rcases hm.live id t ht with hl | hl
        · exact Or.inl (List.mem_cons_of_mem _ hl)
        · exact Or.inr hl

theorem RunState.Inv.onRemove {evs : List RunEvent} {s : RunState} (h : RunState.Inv evs s)
    (p : Target) : RunState.Inv (evs ++ [RunEvent.removed p]) (onRemove s p) := by
  cases hg : mapGet s.tails p.GetID with
  | none =>
    rw [onRemove_absent s p hg]
    exact h.mono _
  | some t0 =>
    rw [onRemove_present s p t0 hg]
    have hm := h.mono (RunEvent.removed p)
    refine ⟨?_, ?_, ?_, ?_, ?_⟩
    · intro id
      simp only [callsFor_append, Action.id]
      by_cases hid : p.GetID = id
      · subst hid
        simp only [if_true, alternating_snoc, h.alt, h.sync, hg, decide_True, Bool.and_self]
      · simp only [hid, if_false, h.alt]
    · intro id
      simp only [callsFor_append, Action.id, mapGet_mapDelete]
      by_cases hid : p.GetID = id
      · simp only [hid, if_true, startedTail_snoc]
      · simp only [hid, if_false, h.sync]
    · intro id t ht
      simp only [mapGet_mapDelete] at ht
      by_cases hid : p.GetID = id
      · simp [hid] at ht
      · simp only [hid, if_false] at ht
        exact h.fresh id t ht
    · intro id1 id2 t1 t2 h1 h2 he
      simp only [mapGet_mapDelete] at h1 h2
      by_cases hid1 : p.GetID = id1
      · simp [hid1] at h1
      · by_cases hid2 : p.GetID = id2
        · simp [hid2] at h2
        · simp only [hid1, if_false] at h1
          simp only [hid2, if_false] at h2
          exact h.inj id1 id2 t1 t2 h1 h2 he
    · intro id t ht
      simp only [mapGet_mapDelete] at ht
      by_cases hid : p.GetID = id
      · simp [hid] at ht
      · simp only [hid, if_false] at ht
        rcases hm.live id t ht with hl | hl
        · left
          have hne : t.addr ≠ t0.addr := fun he => hid (h.inj _ _ _ _ hg ht he.symm)
          simp [List.mem_filter, hl, hne]
        · exact Or.inr hl

theorem RunState.Inv.onWorkerEnd {evs : List RunEvent} {s : RunState} (h : RunState.Inv evs s)
    (addr : Nat) : RunState.Inv (evs ++ [RunEvent.workerEnded addr]) (onWorkerEnd s addr) where
  alt := h.alt
  sync := h.sync
  fresh := h.fresh
  inj := h.inj
  live id t ht := by
    by_cases ha : t.addr = addr
    · exact Or.inr (by simp [ha])
    · rcases h.live id t ht with hl | hl
      · refine Or.inl ?_
        show t.addr ∈ s.running.filter (fun a => a ≠ addr)
        exact List.mem_filter.mpr ⟨hl, by simpa using ha⟩
      · exact Or.inr (List.mem_append_left _ hl)

theorem RunState.run_snoc (s : RunState) (evs : List RunEvent) (e : RunEvent) :
    s.run (evs ++ [e]) = (s.run evs).step e := by
  simp [RunState.run, List.foldl_append]

/-- Every state reached from the empty table satisfies the invariant. -/
theorem RunState.inv_run (evs : List RunEvent) : RunState.Inv evs (RunState.init.run evs) := by
  induction evs using List.reverseRecOn with
  | nil => exact RunState.Inv.init
  | append_singleton evs e ih =>
    rw [RunState.run_snoc]
    cases e with
    | added p => exact ih.onAdd p
    | removed p => exact ih.onRemove p
    | workerEnded addr => exact ih.onWorkerEnd addr

/-- C1. From the empty table, after any sequence of events and for every ID, the
calls `Start` and `Close` made for that ID strictly alternate, beginning with a
`Start`, each `Close` stopping the tail started just before, and the table
holds the tail started and not stopped since.  Step by step: `onAdd` of an ID
in the table changes nothing; `onRemove` of an ID not in the table changes
nothing; `onAdd` of an absent ID makes exactly one call, the `Start` of a new
tail, and inserts it; `onRemove` of a present ID makes exactly one call, the
`Close` of the tail in the table, and erases the entry. -/
theorem C1_tail_table (evs : List RunEvent) (id : GoString) :
    alternating none (callsFor id (RunState.init.run evs).trace) = true ∧
    startedTail none (callsFor id (RunState.init.run evs).trace) =
      mapGet (RunState.init.run evs).tails id ∧
    (∀ (s : RunState) (p : Target), (mapGet s.tails p.GetID).isSome = true → onAdd s p = s) ∧
    (∀ (s : RunState) (p : Target), mapGet s.tails p.GetID = none → onRemove s p = s) ∧
    (∀ (s : RunState) (p : Target), mapGet s.tails p.GetID = none →
      ∃ tail : Tail, tail.addr = s.allocated ∧
        (onAdd s p).trace = s.trace ++ [Action.Start p.GetID tail] ∧
        mapGet (onAdd s p).tails p.GetID = some tail ∧
        ∀ id1, id1 ≠ p.GetID → mapGet (onAdd s p).tails id1 = mapGet s.tails id1) ∧
    (∀ (s : RunState) (p : Target) (tail : Tail), mapGet s.tails p.GetID = some tail →
      (onRemove s p).trace = s.trace ++ [Action.Close p.GetID tail] ∧
      mapGet (onRemove s p).tails p.GetID = none ∧
      ∀ id1, id1 ≠ p.GetID → mapGet (onRemove s p).tails id1 = mapGet s.tails id1) := by
  have hinv := RunState.inv_run evs
  refine ⟨hinv.alt id, hinv.sync id, ?_, ?_, ?_, ?_⟩
  · intro s p hp
    obtain ⟨t, ht⟩ := Option.isSome_iff_exists.mp hp
    exact onAdd_present s p t ht
  · intro s p hp
    exact onRemove_absent s p hp
  · intro s p hp
    refine ⟨NewTail s.allocated p.Namespace p.Pod p.Container, rfl, ?_, ?_, ?_⟩
    · rw [onAdd_absent s p hp]
    · rw [onAdd_absent s p hp]
      simp [mapGet_mapSet]
    · intro id1 hne
      rw [onAdd_absent s p hp]
      simp [mapGet_mapSet, Ne.symm hne]
  · intro s p tail hp
    rw [onRemove_present s p tail hp]
    refine ⟨rfl, by simp [mapGet_mapDelete], ?_⟩
    intro id1 hne
    simp [mapGet_mapDelete, Ne.symm hne]

set_option maxRecDepth 100000 in
theorem run_ended_events :
    RunState.init.run exEndedEvents =
      { tails := [((exTarget "app").GetID, exTail)]
        allocated := 1
        running := []
        trace := [Action.Start (exTarget "app").GetID exTail] } := by
  decide

set_option maxRecDepth 100000 in
theorem run_ended_events_add :
    (RunState.init.run exEndedEvents).step (RunEvent.added (exTarget "app")) =
      RunState.init.run exEndedEvents := by
  decide

theorem mapGet_ended_events :
    mapGet (RunState.init.run exEndedEvents).tails (exTarget "app").GetID = some exTail := by
  rw [run_ended_events]; simp [mapGet]

/-- C10, as stated, fails: after an ADD of `default/web-1/app` and the end of its
reader on its own, the ID is still in the table, mapped to a tail that no
longer runs, and a further ADD of that container starts no worker. -/
theorem C10_counterexample :
    mapGet (RunState.init.run exEndedEvents).tails (exTarget "app").GetID = some exTail ∧
    exTail.addr ∉ (RunState.init.run exEndedEvents).running ∧
    (RunState.init.run (exEndedEvents ++ [RunEvent.added (exTarget "app")])).trace =
      [Action.Start (exTarget "app").GetID exTail] ∧
    ¬ (∀ (evs : List RunEvent) (id : GoString) (t : Tail),
        mapGet (RunState.init.run evs).tails id = some t →
        t.addr ∈ (RunState.init.run evs).running) := by
  have hrun := run_ended_events
  refine ⟨mapGet_ended_events, ?_, ?_, ?_⟩
  · rw [hrun]; simp
  · rw [RunState.run_snoc, run_ended_events_add, hrun]
  · intro h
    have := h exEndedEvents (exTarget "app").GetID exTail mapGet_ended_events
    rw [hrun] at this
    simp at this

/-- C10, amended. In every state reached from the empty table by add events,
remove events and readers ending on their own, an ID in the table maps to the
tail started for it and not stopped by a REMOVE since; that tail still runs
unless its reader has ended on its own (so it runs when no reader has); and an
ADD for that ID, whether or not the tail still runs, starts no worker and
leaves the state unchanged. -/
theorem C10_table_liveness (evs : List RunEvent) (id : GoString) (t : Tail)
    (h : mapGet (RunState.init.run evs).tails id = some t) :
    startedTail none (callsFor id (RunState.init.run evs).trace) = some t ∧
    (t.addr ∈ (RunState.init.run evs).running ∨ RunEvent.workerEnded t.addr ∈ evs) ∧
    ((∀ addr, RunEvent.workerEnded addr ∉ evs) → t.addr ∈ (RunState.init.run evs).running) ∧
    (∀ p : Target, p.GetID = id →
      (RunState.init.run evs).step (RunEvent.added p) = RunState.init.run evs) ∧
    (∀ id1 t1, mapGet (RunState.init.run evs).tails id1 = some t1 → t1.addr = t.addr →
      id1 = id) := by
  have hinv := RunState.inv_run evs
  refine ⟨(hinv.sync id).trans h, hinv.live id t h, ?_, ?_, ?_⟩
  · intro hno
    rcases hinv.live id t h with hl | hl
    · exact hl
    · exact absurd hl (hno _)
  · intro p hp
    subst hp
    exact onAdd_present _ p t h
  · intro id1 t1 h1 he
    exact hinv.inj id1 id t1 t h1 h he

/-- C10 amended, at the state reached by an ADD and the end of the reader. -/
theorem C10_table_liveness_witness :
    mapGet (RunState.init.run exEndedEvents).tails (exTarget "app").GetID = some exTail ∧
    (exTail.addr ∈ (RunState.init.run exEndedEvents).running ∨
      RunEvent.workerEnded exTail.addr ∈ exEndedEvents) :=
  ⟨mapGet_ended_events,
   (C10_table_liveness exEndedEvents (exTarget "app").GetID exTail mapGet_ended_events).2.1⟩

/-! ## What the startup sort keeps of a worker's order -/

theorem LineSlice.Less_eq (s : LineSlice) (i j : Nat) (li lj : Line)
    (hi : s[i]? = some li) (hj : s[j]? = some lj) :
    LineSlice.Less s i j = some (li.less lj) := by
  simp [LineSlice.Less, hi, hj]

theorem Stable_filter_incomparable {α : Type} {less : α → α → Bool}
    (h : StrictWeakOrder less) (a : α) (data : List α) :
    (Stable less data).filter (incomparable less a) = data.filter (incomparable less a) := by
  apply Stable_filter
  intro x y hx hy
  simp only [incomparable, Bool.and_eq_true, Bool.not_eq_true'] at hx hy
  exact (h.incomp_trans x a y hx.2 hx.1 hy.1 hy.2).1

/-- A sorted list is left as it is by `sort.Stable`. -/
theorem Stable_of_sorted {α : Type} {less : α → α → Bool} (h : StrictWeakOrder less)
    (data : List α) (hs : data.Pairwise (fun a b => less b a = false)) :
    Stable less data = data :=
  (stable_sort_unique h data data hs (fun _ => rfl)).symm

/-- Sorting and then keeping the elements that satisfy `c` is keeping them and
then sorting. -/
theorem Stable_filter_comm {α : Type} {less : α → α → Bool} (h : StrictWeakOrder less)
    (c : α → Bool) (data : List α) :
    (Stable less data).filter c = Stable less (data.filter c) := by
  apply stable_sort_unique h
  · exact (Stable_sorted h data).sublist (List.filter_sublist _)
  · intro a
    rw [List.filter_filter, List.filter_filter]
    have e1 : ∀ l : List α, l.filter (fun x => incomparable less a x && c x) =
        (l.filter (incomparable less a)).filter c := by
      intro l
      rw [List.filter_filter]
      congr 1
      funext x
      exact Bool.and_comm _ _
    rw [e1, e1, Stable_filter_incomparable h]

/-- The lines of one prefix buffered in the startup window are printed in the
order received when their leading tokens do not decrease; the lines received
afterwards always are. -/
theorem multiplex_keeps_sorted_prefix (received : List Line) (k : Nat) (p : GoString)
    (hs : ((received.take k).filter (fun l => decide (l.Prefix = p))).Pairwise
      (fun a b => Line.less b a = false)) :
    (multiplex received k).filter (fun l => decide (l.Prefix = p)) =
      received.filter (fun l => decide (l.Prefix = p)) := by
  simp only [multiplex, List.filter_append]
  rw [Stable_filter_comm Line.less_strictWeakOrder, Stable_of_sorted Line.less_strictWeakOrder _ hs,
    ← List.filter_append, List.take_append_drop]

end Stern
